import Mathlib

/-!
Verification of the NetKet discrete-Hilbert-space indexing subsystem and the
sampler base class, shallowly embedded from
`netket/hilbert/discrete_hilbert.py`, `netket/hilbert/homogeneous.py` and
`netket/sampler/base.py`.

Configurations are batches of per-site eigenvalues; eigenvalues are embedded
as rationals (the Python code stores them as float64, idealized here as exact
arithmetic).  Fallible Python code is embedded as `Except PyError`.
-/

set_option autoImplicit false

namespace NetKet

/-- Kinds of Python exceptions raised by the embedded code.  `RuntimeError`
is the error raised by `HomogeneousHilbert._hilbert_index` when the space is
not indexable (the spec's NotIndexableError kind). -/
inductive PyError where
  | TypeError
  | ValueError
  | RuntimeError
  | IndexError
  | ZeroDivisionError
deriving DecidableEq, Repr

/-- Configuration equality tests use decidable equality of rationals, so
that list searches below agree with the library lemmas about `indexOf`. -/
instance (priority := 2000) : BEq (List ℚ) := instBEqOfDecidableEq

/-- Results of embedded fallible operations can be compared by case
analysis, so that concrete runs are checked by `decide`. -/
instance {ε α : Type} [DecidableEq ε] [DecidableEq α] :
    DecidableEq (Except ε α) := fun a b =>
  match a, b with
  | .ok x, .ok y =>
    if h : x = y then .isTrue (by rw [h])
    else .isFalse (by intro hc; injection hc; exact h (by assumption))
  | .error x, .error y =>
    if h : x = y then .isTrue (by rw [h])
    else .isFalse (by intro hc; injection hc; exact h (by assumption))
  | .ok _, .error _ => .isFalse (by intro hc; injection hc)
  | .error _, .ok _ => .isFalse (by intro hc; injection hc)

/-- Embeds `max_states = np.iinfo(np.int32).max` from
`discrete_hilbert.py`. -/
def max_states : ℕ := 2 ^ 31 - 1

/-- Embeds `np.iinfo(np.intp).max`, the per-site dimension stored by
`HomogeneousHilbert.__init__` when the local basis is infinite. -/
def intp_max : ℕ := 2 ^ 63 - 1

/-- Embeds the comparison `np.sum(np.log(shape)) <= np.log(max_states)` of
`_is_indexable` in `discrete_hilbert.py`, with float64 idealized as exact
real arithmetic. -/
def isIndexableLog (shape : List ℕ) : Prop :=
  (shape.map (fun d : ℕ => Real.log (d : ℝ))).sum ≤ Real.log (max_states : ℝ)

/-- Executable form of `_is_indexable` from `discrete_hilbert.py`: the
log-space test of the source is, in exact arithmetic, the integer comparison
`prod(shape) <= max_states` (the equivalence with `isIndexableLog` is proved
in `isIndexable_eq_log` below).  The source checks in log-space only to
avoid overflow of the product in floating point. -/
def isIndexableShape (shape : List ℕ) : Bool :=
  shape.prod ≤ max_states

/-- Embeds the `HomogeneousHilbert` data: `local_states` (`none` for an
infinite local basis), the number of sites `N`, and the optional constraint
predicate, as stored by `HomogeneousHilbert.__init__`. -/
structure HomogeneousHilbert where
  local_states : Option (List ℚ)
  N : ℕ
  constraint_fn : Option (List ℚ → Bool)

namespace HomogeneousHilbert

/-- Embeds `self._local_size`: the length of `local_states`, or
`np.iinfo(np.intp).max` when the basis is infinite. -/
def local_size (h : HomogeneousHilbert) : ℕ :=
  match h.local_states with
  | some ls => ls.length
  | none => intp_max

/-- Embeds `shape = tuple(self._local_size for _ in range(N))` from
`HomogeneousHilbert.__init__`. -/
def shape (h : HomogeneousHilbert) : List ℕ :=
  List.replicate h.N h.local_size

/-- Embeds `HomogeneousHilbert.size = len(self.shape)`. -/
def size (h : HomogeneousHilbert) : ℕ :=
  h.shape.length

/-- Embeds `HomogeneousHilbert.is_finite = (local_states is not None)`. -/
def is_finite (h : HomogeneousHilbert) : Bool :=
  h.local_states.isSome

/-- Embeds `HomogeneousHilbert.constrained = (constraint_fn is not None)`. -/
def constrained (h : HomogeneousHilbert) : Bool :=
  h.constraint_fn.isSome

/-- Embeds `DiscreteHilbert.is_indexable`:
`False if not self.is_finite else _is_indexable(self.shape)`. -/
def is_indexable (h : HomogeneousHilbert) : Bool :=
  if h.is_finite then isIndexableShape h.shape else false

end HomogeneousHilbert

/-- Modelled from the spec: the unconstrained Hilbert index engine's decode
(`numbers_to_states` for a single number) is a "pure positional
(mixed-radix) encoding".  Site 0 is the most significant digit; the digit at
each site selects an eigenvalue from `ls`.  `netket/hilbert/index/` is not
part of the supplied sources.  Range checking is performed by the public
wrapper `DiscreteHilbert.numbers_to_states`, which is in the sources. -/
def uNumberToState (ls : List ℚ) : ℕ → ℕ → List ℚ
  | 0, _ => []
  | size + 1, n =>
    ls.getD (n / ls.length ^ size) 0 :: uNumberToState ls size (n % ls.length ^ size)

/-- Modelled from the spec: the unconstrained engine's encode
(`states_to_numbers` for a single configuration) is "a direct mixed-radix
encode (closed form, O(sites) per configuration)", the inverse of
`uNumberToState`.  `netket/hilbert/index/` is not part of the supplied
sources. -/
def uStateToNumber (ls : List ℚ) : List ℚ → ℕ
  | [] => 0
  | v :: rest => ls.indexOf v * ls.length ^ rest.length + uStateToNumber ls rest

/-- Modelled from the spec: `all_states` of the unconstrained engine is the
full enumeration of the product space in index order. -/
def uAllStates (ls : List ℚ) (size : ℕ) : List (List ℚ) :=
  (List.range (ls.length ^ size)).map (uNumberToState ls size)

/-- Modelled from the spec: the constrained engine is "built by enumerating
the unconstrained space in index order and retaining only configurations
satisfying the predicate" (a stable filter), stored as a lookup table. -/
def cAllStates (ls : List ℚ) (size : ℕ) (P : List ℚ → Bool) : List (List ℚ) :=
  (uAllStates ls size).filter P

/-- Modelled from the spec: the two Hilbert index engine variants built by
`HomogeneousHilbert._hilbert_index` (`UnconstrainedHilbertIndex` and
`ConstrainedHilbertIndex`, whose sources in `netket/hilbert/index/` are not
supplied). -/
inductive HilbertIndex where
  | unconstrained (local_states : List ℚ) (size : ℕ)
  | constrained (local_states : List ℚ) (size : ℕ) (constraint_fn : List ℚ → Bool)

namespace HilbertIndex

/-- Modelled from the spec: `n_states` is the full product-space size for
the unconstrained engine and the "total count after filtering" for the
constrained engine. -/
def n_states : HilbertIndex → ℕ
  | .unconstrained ls size => ls.length ^ size
  | .constrained ls size P => (cAllStates ls size P).length

/-- Modelled from the spec: decoding one number.  Unconstrained: mixed-radix
decode; constrained: "a lookup table built once at construction". -/
def numberToState : HilbertIndex → ℕ → List ℚ
  | .unconstrained ls size, n => uNumberToState ls size n
  | .constrained ls size P, n => (cAllStates ls size P).getD n []

/-- Modelled from the spec: encoding one configuration.  Unconstrained:
mixed-radix encode; constrained: a reverse lookup into the compacted table,
which "must return the same number that `numbers_to_states` would decode
back to that configuration". -/
def stateToNumber : HilbertIndex → List ℚ → ℕ
  | .unconstrained ls _, s => uStateToNumber ls s
  | .constrained ls size P, s => (cAllStates ls size P).indexOf s

/-- Modelled from the spec: `all_states` "returns the full enumeration; for
constrained spaces this is simply the cached compacted table". -/
def allStates : HilbertIndex → List (List ℚ)
  | .unconstrained ls size => uAllStates ls size
  | .constrained ls size P => cAllStates ls size P

end HilbertIndex

namespace HomogeneousHilbert

/-- The engine that `HomogeneousHilbert._hilbert_index` builds: constrained
when a `constraint_fn` is present, unconstrained otherwise.  The infinite
branch is never reached through `hilbertIndex?` because an infinite space is
not indexable. -/
def engineOf (h : HomogeneousHilbert) : HilbertIndex :=
  match h.local_states, h.constraint_fn with
  | some ls, some P => .constrained ls h.N P
  | some ls, none => .unconstrained ls h.N
  | none, _ => .unconstrained [] h.N

/-- Embeds the property `HomogeneousHilbert._hilbert_index`: raises
`RuntimeError` ("The hilbert space is too large to be indexed.") when the
space is not indexable, and otherwise builds the constrained or
unconstrained index engine. -/
def hilbertIndex? (h : HomogeneousHilbert) : Except PyError HilbertIndex :=
  if h.is_indexable then .ok h.engineOf else .error .RuntimeError

/-- Embeds `HomogeneousHilbert.n_states = self._hilbert_index.n_states`. -/
def n_states (h : HomogeneousHilbert) : Except PyError ℕ := do
  let idx ← h.hilbertIndex?
  return idx.n_states

/-- The pure value of `n_states` on an indexable space. -/
def nStatesVal (h : HomogeneousHilbert) : ℕ :=
  h.engineOf.n_states

/-- The configuration the engine decodes a number to (pure value of one
entry of `numbers_to_states`). -/
def decode (h : HomogeneousHilbert) (n : ℕ) : List ℚ :=
  h.engineOf.numberToState n

/-- The number the engine encodes a configuration to (pure value of one
entry of `states_to_numbers`). -/
def encode (h : HomogeneousHilbert) (s : List ℚ) : ℕ :=
  h.engineOf.stateToNumber s

/-- The pure value of `all_states` on an indexable space. -/
def statesList (h : HomogeneousHilbert) : List (List ℚ) :=
  h.engineOf.allStates

/-- Embeds `DiscreteHilbert.numbers_to_states` specialized by
`HomogeneousHilbert._numbers_to_states`: first the range check
`if np.any(numbers >= self.n_states): raise ValueError` (where accessing
`self.n_states` itself raises `RuntimeError` on a non-indexable space),
then the engine decode of every number in the batch. -/
def numbers_to_states (h : HomogeneousHilbert) (numbers : List ℕ) :
    Except PyError (List (List ℚ)) := do
  let ns ← h.n_states
  if numbers.any fun n => decide (ns ≤ n) then .error .ValueError
  else do
    let idx ← h.hilbertIndex?
    return numbers.map idx.numberToState

/-- Embeds `DiscreteHilbert.states_to_numbers` specialized by
`HomogeneousHilbert._states_to_numbers`: first the batch-shape check
`if states.shape[-1] != self.size: raise ValueError`, then the engine
(which raises `RuntimeError` on a non-indexable space) encodes every
configuration in the batch. -/
def states_to_numbers (h : HomogeneousHilbert) (states : List (List ℚ)) :
    Except PyError (List ℕ) :=
  if states.all fun s => s.length == h.size then do
    let idx ← h.hilbertIndex?
    return states.map idx.stateToNumber
  else .error .ValueError

/-- Embeds `HomogeneousHilbert.all_states =
self._hilbert_index.all_states(out)`. -/
def all_states (h : HomogeneousHilbert) : Except PyError (List (List ℚ)) := do
  let idx ← h.hilbertIndex?
  return idx.allStates

/-- A valid configuration of the space: one eigenvalue of the local basis
per site, satisfying the constraint predicate when one is present. -/
def validConfig (h : HomogeneousHilbert) (s : List ℚ) : Bool :=
  (s.length == h.N) &&
    (match h.local_states with
     | some ls => s.all fun v => decide (v ∈ ls)
     | none => false) &&
    (match h.constraint_fn with
     | some P => P s
     | none => true)

end HomogeneousHilbert

/-- Embeds `HomogeneousHilbert.__init__`.  The source only asserts
`isinstance(N, int)` and that the local-state array is one-dimensional;
both are enforced by the types of this embedding, and the source performs
no further validation of `local_states` (in particular no emptiness or
duplicate check), so construction always succeeds. -/
def homogeneousInit (local_states : Option (List ℚ)) (N : ℕ)
    (constraint_fn : Option (List ℚ → Bool)) :
    Except PyError HomogeneousHilbert :=
  .ok ⟨local_states, N, constraint_fn⟩

/-- Embeds a discrete Hilbert space closed under the tensor product: a
homogeneous leaf, or the generic tensor-product wrapper produced by
`DiscreteHilbert.__mul__` (the wrapper class `TensorDiscreteHilbert` is not
among the supplied sources; its shape and state count are modelled from the
spec below). -/
inductive DHilbert where
  | homogeneous (h : HomogeneousHilbert)
  | tensor (a b : DHilbert)

namespace DHilbert

/-- Shape of a space.  For the tensor wrapper, modelled from the spec:
the tensor product "produces a new space whose shape is the concatenation
of the operands' shapes". -/
def shape : DHilbert → List ℕ
  | .homogeneous h => h.shape
  | .tensor a b => a.shape ++ b.shape

/-- State count of a space.  For the tensor wrapper, modelled from the
spec: the wrapper "composes index engines by treating the pair as
independent sub-indices (row-major composite encoding:
`number = number_a * n_states_b + number_b`)", so its state count is the
product of the operands' state counts; either operand failing to be
indexable propagates its error. -/
def nStates? : DHilbert → Except PyError ℕ
  | .homogeneous h => h.n_states
  | .tensor a b => do
    let x ← a.nStates?
    let y ← b.nStates?
    return x * y

/-- Embeds `DiscreteHilbert.__mul__`: no subclass in the supplied sources
defines `_mul_sametype_`, so the generic tensor-product wrapper is always
produced. -/
def mul (a b : DHilbert) : DHilbert :=
  .tensor a b

/-- Embeds `DiscreteHilbert.__pow__`:
`reduce(lambda x, y: x * y, [self for _ in range(n)])`.  Python's `reduce`
raises `TypeError` on the empty sequence, embedded as `none`. -/
def pow (h : DHilbert) (n : ℕ) : Option DHilbert :=
  match List.replicate n h with
  | [] => none
  | x :: xs => some (xs.foldl mul x)

end DHilbert

/-- Modelled from the spec: "Repeated self-product (`space ** n`) is
left-folded tensor product, n times"; undefined for `n = 0`. -/
def tensorFoldSpec (h : DHilbert) : ℕ → Option DHilbert
  | 0 => none
  | 1 => some h
  | n + 2 => (tensorFoldSpec h (n + 1)).map fun x => x.mul h

/-- Embeds the `machine_pow` argument of `Sampler.__init__`: a Python
scalar that is either an integer or a float. -/
inductive PyNumber where
  | int (n : ℤ)
  | float (x : ℚ)
deriving DecidableEq, Repr

/-- Embeds `np.issubdtype(numbers.dtype(machine_pow), np.integer)` from
`Sampler.__init__`: true exactly when the scalar is an integer. -/
def dtypeIsInteger : PyNumber → Bool
  | .int _ => true
  | .float _ => false

/-- Embeds the `hilbert` argument of `Sampler.__init__`: either an actual
`AbstractHilbert` instance (a homogeneous space suffices for this
development) or an object of some other type. -/
inductive SamplerHilbertArg where
  | abstractHilbert (h : HomogeneousHilbert)
  | notAHilbert

/-- Embeds `isinstance(hilbert, AbstractHilbert)`. -/
def SamplerHilbertArg.isAbstractHilbert : SamplerHilbertArg → Bool
  | .abstractHilbert _ => true
  | .notAHilbert => false

/-- Embeds the fields of the base `Sampler` set by `Sampler.__init__`
(`dtype` is stored unvalidated and is omitted). -/
structure Sampler where
  hilbert : SamplerHilbertArg
  machine_pow : PyNumber

/-- Embeds `Sampler.__init__`: first `isinstance(hilbert, AbstractHilbert)`
else `TypeError`; then
`np.issubdtype(numbers.dtype(machine_pow), np.integer)` else `ValueError`.
The source performs no positivity check on `machine_pow`, although its
`ValueError` message reads "must be a positive integer". -/
def samplerInit (hilbert : SamplerHilbertArg) (machine_pow : PyNumber) :
    Except PyError Sampler :=
  if hilbert.isAbstractHilbert then
    if dtypeIsInteger machine_pow then .ok ⟨hilbert, machine_pow⟩
    else .error .ValueError
  else .error .TypeError

/-- Embeds the base-class property `Sampler.n_chains`, which returns
`mpi.n_nodes`. -/
def n_chains_base (n_nodes : ℕ) : ℕ :=
  n_nodes

/-- Embeds the property `Sampler.n_chains_per_rank`:
`res, remainder = divmod(self.n_chains, mpi.n_nodes)`, raising
`RuntimeError` ("The number of chains is not a multiple of the number of
mpi ranks", the spec's ConsistencyError kind) when the remainder is
nonzero.  Python's `divmod` raises `ZeroDivisionError` for zero ranks. -/
def n_chains_per_rank (n_chains n_nodes : ℕ) : Except PyError ℕ :=
  if n_nodes = 0 then .error .ZeroDivisionError
  else if n_chains % n_nodes = 0 then .ok (n_chains / n_nodes)
  else .error .RuntimeError

/-- Embeds `int(np.ceil(n_chains / mpi.n_nodes))` with float64 idealized as
exact arithmetic: the ceiling of the division. -/
def npCeilDiv (a b : ℕ) : ℕ :=
  (a + b - 1) / b

/-- Embeds `compute_n_chains` from `sampler/base.py`.  Arguments are the
two optional chain counts, the default, `mpi.n_nodes` and `mpi.rank`.
Returns the total chain count together with whether a `UserWarning` was
emitted.  Both counts given is `ValueError`; a non-positive per-rank count
is `TypeError`. -/
def compute_n_chains (n_chains_per_rank_arg n_chains_arg : Option ℕ)
    (default n_nodes rank : ℕ) : Except PyError (ℕ × Bool) :=
  match n_chains_per_rank_arg, n_chains_arg with
  | some _, some _ => .error .ValueError
  | _, some nc =>
    let ncpr := max (npCeilDiv nc n_nodes) 1
    let warned := decide (1 < n_nodes) && decide (rank = 0) &&
      decide (ncpr * n_nodes ≠ nc)
    if ncpr = 0 then .error .TypeError else .ok (ncpr * n_nodes, warned)
  | some p, none =>
    if p = 0 then .error .TypeError else .ok (p * n_nodes, false)
  | none, none =>
    if default = 0 then .error .TypeError else .ok (default * n_nodes, false)

/-- The two-eigenvalue (spin one-half) local basis. -/
def qHalf : List ℚ := [-1, 1]

/-- A two-site unconstrained spin chain. -/
def spinChain2 : HomogeneousHilbert := ⟨some qHalf, 2, none⟩

/-- A two-site space with an infinite local basis. -/
def infiniteChain : HomogeneousHilbert := ⟨none, 2, none⟩

/-- The zero-total-magnetization constraint predicate for a spin one-half
chain: as many up spins as down spins. -/
def zeroSum : List ℚ → Bool := fun s => s.count 1 == s.count (-1)

/-- A four-site spin chain constrained to zero total magnetization. -/
def constrainedChain4 : HomogeneousHilbert := ⟨some qHalf, 4, some zeroSum⟩

/-- A three-site unconstrained spin space, as a composable space. -/
def spin3 : DHilbert := .homogeneous ⟨some qHalf, 3, none⟩

/-- A four-site unconstrained spin space, as a composable space. -/
def spin4 : DHilbert := .homogeneous ⟨some qHalf, 4, none⟩

lemma uNumberToState_length (ls : List ℚ) :
    ∀ size n : ℕ, (uNumberToState ls size n).length = size := by
  intro size
  induction size with
  | zero => intro n; rfl
  | succ m ih => intro n; simp [uNumberToState, ih]

lemma uNumberToState_mem (ls : List ℚ) :
    ∀ size n : ℕ, n < ls.length ^ size →
      ∀ v ∈ uNumberToState ls size n, v ∈ ls := by
  intro size
  induction size with
  | zero => intro n _ v hv; simp [uNumberToState] at hv
  | succ m ih =>
    intro n hn v hv
    have hk : 0 < ls.length := by
      rcases Nat.eq_zero_or_pos ls.length with h0 | h0
      · rw [h0] at hn; simp [Nat.pow_succ] at hn
      · exact h0
    have hK : 0 < ls.length ^ m := Nat.pos_pow_of_pos m hk
    simp only [uNumberToState, List.mem_cons] at hv
    rcases hv with hv | hv
    · have hq : n / ls.length ^ m < ls.length := by
        rw [Nat.div_lt_iff_lt_mul hK]
        rw [Nat.pow_succ, Nat.mul_comm] at hn
        exact hn
      rw [hv, List.getD_eq_getElem _ _ hq]
      exact List.getElem_mem hq
    · exact ih (n % ls.length ^ m) (Nat.mod_lt _ hK) v hv

lemma uStateToNumber_lt (ls : List ℚ) :
    ∀ s : List ℚ, (∀ v ∈ s, v ∈ ls) →
      uStateToNumber ls s < ls.length ^ s.length := by
  intro s
  induction s with
  | nil => intro _; simp [uStateToNumber]
  | cons v rest ih =>
    intro hval
    have hv : v ∈ ls := hval v (List.mem_cons_self v rest)
    have hi : ls.indexOf v < ls.length := List.indexOf_lt_length.mpr hv
    have hr : uStateToNumber ls rest < ls.length ^ rest.length :=
      ih fun w hw => hval w (List.mem_cons_of_mem v hw)
    simp only [uStateToNumber, List.length_cons]
    calc ls.indexOf v * ls.length ^ rest.length + uStateToNumber ls rest
        < ls.indexOf v * ls.length ^ rest.length + ls.length ^ rest.length :=
          Nat.add_lt_add_left hr _
      _ = (ls.indexOf v + 1) * ls.length ^ rest.length := by ring
      _ ≤ ls.length * ls.length ^ rest.length :=
          Nat.mul_le_mul_right _ (Nat.succ_le_of_lt hi)
      _ = ls.length ^ (rest.length + 1) := by rw [Nat.pow_succ]; ring

lemma uRoundtrip_num (ls : List ℚ) (hnd : ls.Nodup) :
    ∀ size n : ℕ, n < ls.length ^ size →
      uStateToNumber ls (uNumberToState ls size n) = n := by
  intro size
  induction size with
  | zero =>
    intro n hn
    have : n = 0 := Nat.lt_one_iff.mp (by simpa using hn)
    simp [this, uNumberToState, uStateToNumber]
  | succ m ih =>
    intro n hn
    have hk : 0 < ls.length := by
      rcases Nat.eq_zero_or_pos ls.length with h0 | h0
      · rw [h0] at hn; simp [Nat.pow_succ] at hn
      · exact h0
    have hK : 0 < ls.length ^ m := Nat.pos_pow_of_pos m hk
    have hq : n / ls.length ^ m < ls.length := by
      rw [Nat.div_lt_iff_lt_mul hK]
      rw [Nat.pow_succ, Nat.mul_comm] at hn
      exact hn
    simp only [uNumberToState, uStateToNumber,
      uNumberToState_length ls m (n % ls.length ^ m)]
    rw [List.getD_eq_getElem _ _ hq, List.indexOf_getElem hnd _ hq,
      ih (n % ls.length ^ m) (Nat.mod_lt _ hK)]
    rw [Nat.mul_comm]
    exact Nat.div_add_mod n (ls.length ^ m)

lemma uRoundtrip_state (ls : List ℚ) :
    ∀ s : List ℚ, (∀ v ∈ s, v ∈ ls) →
      uNumberToState ls s.length (uStateToNumber ls s) = s := by
  intro s
  induction s with
  | nil => intro _; rfl
  | cons v rest ih =>
    intro hval
    have hv : v ∈ ls := hval v (List.mem_cons_self v rest)
    have hi : ls.indexOf v < ls.length := List.indexOf_lt_length.mpr hv
    have hk : 0 < ls.length := Nat.lt_of_le_of_lt (Nat.zero_le _) hi
    have hK : 0 < ls.length ^ rest.length := Nat.pos_pow_of_pos _ hk
    have hr : uStateToNumber ls rest < ls.length ^ rest.length :=
      uStateToNumber_lt ls rest fun w hw => hval w (List.mem_cons_of_mem v hw)
    simp only [uStateToNumber, List.length_cons, uNumberToState]
    have hdiv :
        (ls.indexOf v * ls.length ^ rest.length + uStateToNumber ls rest) /
          ls.length ^ rest.length = ls.indexOf v := by
      rw [Nat.mul_comm (ls.indexOf v), Nat.mul_add_div hK,
        Nat.div_eq_of_lt hr, Nat.add_zero]
    have hmod :
        (ls.indexOf v * ls.length ^ rest.length + uStateToNumber ls rest) %
          ls.length ^ rest.length = uStateToNumber ls rest := by
      rw [Nat.mul_add_mod', Nat.mod_eq_of_lt hr]
    rw [hdiv, hmod, List.getD_eq_getElem _ _ hi, List.getElem_indexOf hi,
      ih fun w hw => hval w (List.mem_cons_of_mem v hw)]

lemma uAllStates_length (ls : List ℚ) (size : ℕ) :
    (uAllStates ls size).length = ls.length ^ size := by
  simp [uAllStates]

lemma length_of_mem_uAllStates {ls : List ℚ} {size : ℕ} {s : List ℚ}
    (hs : s ∈ uAllStates ls size) : s.length = size := by
  rcases List.mem_map.mp hs with ⟨n, _, rfl⟩
  exact uNumberToState_length ls size n

lemma mem_of_mem_uAllStates {ls : List ℚ} {size : ℕ} {s : List ℚ}
    (hs : s ∈ uAllStates ls size) : ∀ v ∈ s, v ∈ ls := by
  rcases List.mem_map.mp hs with ⟨n, hn, rfl⟩
  exact uNumberToState_mem ls size n (List.mem_range.mp hn)

lemma uAllStates_nodup {ls : List ℚ} (hnd : ls.Nodup) (size : ℕ) :
    (uAllStates ls size).Nodup := by
  refine List.Nodup.map_on ?_ (List.nodup_range _)
  intro a ha b hb heq
  have ha' := List.mem_range.mp ha
  have hb' := List.mem_range.mp hb
  calc a = uStateToNumber ls (uNumberToState ls size a) :=
        (uRoundtrip_num ls hnd size a ha').symm
    _ = uStateToNumber ls (uNumberToState ls size b) := by rw [heq]
    _ = b := uRoundtrip_num ls hnd size b hb'

lemma mem_uAllStates_of_valid {ls : List ℚ} {size : ℕ} {s : List ℚ}
    (hlen : s.length = size) (hval : ∀ v ∈ s, v ∈ ls) :
    s ∈ uAllStates ls size := by
  have hdec : uNumberToState ls size (uStateToNumber ls s) = s := by
    rw [← hlen]; exact uRoundtrip_state ls s hval
  have hlt : uStateToNumber ls s < ls.length ^ size := by
    rw [← hlen]; exact uStateToNumber_lt ls s hval
  exact List.mem_map.mpr ⟨uStateToNumber ls s, List.mem_range.mpr hlt, hdec⟩

lemma cAllStates_nodup {ls : List ℚ} (hnd : ls.Nodup) (size : ℕ)
    (P : List ℚ → Bool) : (cAllStates ls size P).Nodup :=
  List.Nodup.filter P (uAllStates_nodup hnd size)

lemma mem_cAllStates_iff {ls : List ℚ} {size : ℕ} {P : List ℚ → Bool}
    {s : List ℚ} :
    s ∈ cAllStates ls size P ↔ s ∈ uAllStates ls size ∧ P s = true :=
  List.mem_filter

lemma cRoundtrip_num {ls : List ℚ} (hnd : ls.Nodup) (size : ℕ)
    (P : List ℚ → Bool) {n : ℕ} (hn : n < (cAllStates ls size P).length) :
    (cAllStates ls size P).indexOf ((cAllStates ls size P).getD n []) = n := by
  rw [List.getD_eq_getElem _ _ hn]
  exact List.indexOf_getElem (cAllStates_nodup hnd size P) n hn

lemma cRoundtrip_state {ls : List ℚ} {size : ℕ} {P : List ℚ → Bool}
    {s : List ℚ} (hs : s ∈ cAllStates ls size P) :
    (cAllStates ls size P).getD ((cAllStates ls size P).indexOf s) [] = s := by
  have hlt : (cAllStates ls size P).indexOf s < (cAllStates ls size P).length :=
    List.indexOf_lt_length.mpr hs
  rw [List.getD_eq_getElem _ _ hlt]
  exact List.getElem_indexOf hlt

lemma ok_bind {α β : Type} (a : α) (f : α → Except PyError β) :
    (Except.ok a >>= f : Except PyError β) = f a := rfl

lemma ok_map {α β : Type} (a : α) (f : α → β) :
    (f <$> (Except.ok a : Except PyError α) : Except PyError β) = .ok (f a) := rfl

lemma err_bind {α β : Type} (e : PyError) (f : α → Except PyError β) :
    (Except.error e >>= f : Except PyError β) = .error e := rfl

lemma size_eq_N (h : HomogeneousHilbert) : h.size = h.N := by
  simp [HomogeneousHilbert.size, HomogeneousHilbert.shape]

lemma hilbertIndex?_ok {h : HomogeneousHilbert} (hidx : h.is_indexable = true) :
    h.hilbertIndex? = .ok h.engineOf := by
  simp [HomogeneousHilbert.hilbertIndex?, hidx]

lemma n_states_ok {h : HomogeneousHilbert} (hidx : h.is_indexable = true) :
    h.n_states = .ok h.nStatesVal := by
  simp [HomogeneousHilbert.n_states, hilbertIndex?_ok hidx,
    HomogeneousHilbert.nStatesVal]

lemma validConfig_iff {ls : List ℚ} {N : ℕ} {cf : Option (List ℚ → Bool)}
    {s : List ℚ} :
    HomogeneousHilbert.validConfig ⟨some ls, N, cf⟩ s = true ↔
      s.length = N ∧ (∀ v ∈ s, v ∈ ls) ∧ ∀ P, cf = some P → P s = true := by
  cases cf <;>
    simp [HomogeneousHilbert.validConfig, and_assoc]

lemma decode_length {h : HomogeneousHilbert} {ls : List ℚ}
    (hls : h.local_states = some ls) {n : ℕ} (hn : n < h.nStatesVal) :
    (h.decode n).length = h.N := by
  obtain ⟨lsopt, N, cf⟩ := h
  obtain rfl : lsopt = some ls := hls
  cases cf with
  | none =>
    exact uNumberToState_length ls N n
  | some P =>
    have hn' : n < (cAllStates ls N P).length := hn
    have hmem : (cAllStates ls N P).getD n [] ∈ cAllStates ls N P := by
      rw [List.getD_eq_getElem _ _ hn']
      exact List.getElem_mem hn'
    exact length_of_mem_uAllStates (mem_cAllStates_iff.mp hmem).1

lemma encode_decode_eq {h : HomogeneousHilbert} {ls : List ℚ}
    (hls : h.local_states = some ls) (hnd : ls.Nodup) {n : ℕ}
    (hn : n < h.nStatesVal) : h.encode (h.decode n) = n := by
  obtain ⟨lsopt, N, cf⟩ := h
  obtain rfl : lsopt = some ls := hls
  cases cf with
  | none => exact uRoundtrip_num ls hnd N n hn
  | some P => exact cRoundtrip_num hnd N P hn

lemma mem_cAllStates_of_validConfig {ls : List ℚ} {N : ℕ}
    {P : List ℚ → Bool} {s : List ℚ}
    (hval : HomogeneousHilbert.validConfig ⟨some ls, N, some P⟩ s = true) :
    s ∈ cAllStates ls N P := by
  rcases validConfig_iff.mp hval with ⟨hlen, hmem, hP⟩
  exact mem_cAllStates_iff.mpr
    ⟨mem_uAllStates_of_valid hlen hmem, hP P rfl⟩

lemma decode_encode_eq {h : HomogeneousHilbert} {ls : List ℚ}
    (hls : h.local_states = some ls) {s : List ℚ}
    (hval : h.validConfig s = true) : h.decode (h.encode s) = s := by
  obtain ⟨lsopt, N, cf⟩ := h
  obtain rfl : lsopt = some ls := hls
  cases cf with
  | none =>
    rcases validConfig_iff.mp hval with ⟨hlen, hmem, _⟩
    show uNumberToState ls N (uStateToNumber ls s) = s
    rw [← hlen]
    exact uRoundtrip_state ls s hmem
  | some P => exact cRoundtrip_state (mem_cAllStates_of_validConfig hval)

lemma encode_lt_nStatesVal {h : HomogeneousHilbert} {ls : List ℚ}
    (hls : h.local_states = some ls) {s : List ℚ}
    (hval : h.validConfig s = true) : h.encode s < h.nStatesVal := by
  obtain ⟨lsopt, N, cf⟩ := h
  obtain rfl : lsopt = some ls := hls
  cases cf with
  | none =>
    rcases validConfig_iff.mp hval with ⟨hlen, hmem, _⟩
    show uStateToNumber ls s < ls.length ^ N
    rw [← hlen]
    exact uStateToNumber_lt ls s hmem
  | some P =>
    exact List.indexOf_lt_length.mpr (mem_cAllStates_of_validConfig hval)

lemma numbers_to_states_ok {h : HomogeneousHilbert}
    (hidx : h.is_indexable = true) (numbers : List ℕ)
    (hall : ∀ n ∈ numbers, n < h.nStatesVal) :
    h.numbers_to_states numbers = .ok (numbers.map h.decode) := by
  have hcond : ¬ ∃ x ∈ numbers, h.nStatesVal ≤ x := by
    rintro ⟨x, hx, hge⟩
    exact absurd (hall x hx) (Nat.not_lt.mpr hge)
  simp [HomogeneousHilbert.numbers_to_states, n_states_ok hidx,
    hilbertIndex?_ok hidx, hcond, ok_bind, ok_map, HomogeneousHilbert.decode]

lemma numbers_to_states_err {h : HomogeneousHilbert}
    (hidx : h.is_indexable = true) {numbers : List ℕ} {n : ℕ}
    (hn : n ∈ numbers) (hge : h.nStatesVal ≤ n) :
    h.numbers_to_states numbers = .error .ValueError := by
  have hcond : ∃ x ∈ numbers, h.nStatesVal ≤ x := ⟨n, hn, hge⟩
  simp [HomogeneousHilbert.numbers_to_states, n_states_ok hidx, hcond, ok_bind]

lemma states_to_numbers_ok {h : HomogeneousHilbert}
    (hidx : h.is_indexable = true) (states : List (List ℚ))
    (hlen : ∀ s ∈ states, s.length = h.N) :
    h.states_to_numbers states = .ok (states.map h.encode) := by
  have hcond : (states.all fun s => s.length == h.size) = true := by
    rw [List.all_eq_true]
    intro s hs
    simp [size_eq_N, hlen s hs]
  simp [HomogeneousHilbert.states_to_numbers, hcond, hilbertIndex?_ok hidx,
    HomogeneousHilbert.encode]

/-- C1: for every indexable homogeneous Hilbert space (whose local basis
has, per the LocalBasis invariant, distinct eigenvalues), the public
operations form a bijection between numbers below `n_states` and valid
configurations: decoding a number and re-encoding it returns the number,
and encoding a valid configuration and re-decoding it returns the
configuration. -/
theorem C1_index_roundtrip (h : HomogeneousHilbert) (ls : List ℚ)
    (hls : h.local_states = some ls) (hnd : ls.Nodup)
    (hidx : h.is_indexable = true) :
    (∀ n : ℕ, n < h.nStatesVal →
      h.numbers_to_states [n] = .ok [h.decode n] ∧
      h.states_to_numbers [h.decode n] = .ok [n]) ∧
    (∀ s : List ℚ, h.validConfig s = true →
      h.states_to_numbers [s] = .ok [h.encode s] ∧
      h.numbers_to_states [h.encode s] = .ok [s]) := by
  constructor
  · intro n hn
    constructor
    · simpa using numbers_to_states_ok hidx [n] (by simpa using hn)
    · have hok := states_to_numbers_ok hidx [h.decode n]
        (by simpa using decode_length hls hn)
      simpa [encode_decode_eq hls hnd hn] using hok
  · intro s hval
    constructor
    · have hlen : s.length = h.N := by
        obtain ⟨lsopt, N, cf⟩ := h
        obtain rfl : lsopt = some ls := hls
        exact (validConfig_iff.mp hval).1
      simpa using states_to_numbers_ok hidx [s] (by simpa using hlen)
    · have hok := numbers_to_states_ok hidx [h.encode s]
        (by simpa using encode_lt_nStatesVal hls hval)
      simpa [decode_encode_eq hls hval] using hok

/-- C1 witness: the round trip evaluated on the two-site spin chain at the
concrete number 2. -/
theorem C1_index_roundtrip_witness :
    spinChain2.numbers_to_states [2] = .ok [spinChain2.decode 2] ∧
    spinChain2.states_to_numbers [spinChain2.decode 2] = .ok [2] :=
  (C1_index_roundtrip spinChain2 qHalf rfl (by decide) (by decide)).1 2
    (by decide)

/-- C3: on a non-indexable homogeneous space every indexing operation
(`n_states`, `numbers_to_states`, `states_to_numbers` on a well-shaped
batch, `all_states`) fails with the `RuntimeError` raised by
`_hilbert_index` (the spec's NotIndexableError kind) and never returns a
value. -/
theorem C3_not_indexable_errors (h : HomogeneousHilbert)
    (hidx : h.is_indexable = false) :
    h.n_states = .error .RuntimeError ∧
    (∀ numbers : List ℕ,
      h.numbers_to_states numbers = .error .RuntimeError) ∧
    (∀ states : List (List ℚ), (∀ s ∈ states, s.length = h.size) →
      h.states_to_numbers states = .error .RuntimeError) ∧
    h.all_states = .error .RuntimeError := by
  have hfail : h.hilbertIndex? = .error .RuntimeError := by
    simp [HomogeneousHilbert.hilbertIndex?, hidx]
  have hns : h.n_states = .error .RuntimeError := by
    simp [HomogeneousHilbert.n_states, hfail, err_bind]
  refine ⟨hns, ?_, ?_, ?_⟩
  · intro numbers
    simp [HomogeneousHilbert.numbers_to_states, hns, err_bind]
  · intro states hlen
    have hcond : (states.all fun s => s.length == h.size) = true := by
      rw [List.all_eq_true]
      intro s hs
      simpa using hlen s hs
    simp [HomogeneousHilbert.states_to_numbers, hcond, hfail, err_bind]
  · simp [HomogeneousHilbert.all_states, hfail, err_bind]

/-- C3 witness: the four operations evaluated on a space with an infinite
local basis. -/
theorem C3_not_indexable_errors_witness :
    infiniteChain.n_states = .error .RuntimeError ∧
    infiniteChain.numbers_to_states [0] = .error .RuntimeError ∧
    infiniteChain.states_to_numbers [[0, 0]] = .error .RuntimeError ∧
    infiniteChain.all_states = .error .RuntimeError :=
  ⟨(C3_not_indexable_errors infiniteChain rfl).1,
   (C3_not_indexable_errors infiniteChain rfl).2.1 [0],
   (C3_not_indexable_errors infiniteChain rfl).2.2.1 [[0, 0]] (by decide),
   (C3_not_indexable_errors infiniteChain rfl).2.2.2⟩

/-- C4 counterexample: on the indexable two-site spin chain, a batch
containing the out-of-range number 5 makes `numbers_to_states` raise
`ValueError` (line 159 of `discrete_hilbert.py`), not the `IndexError`
stated by the claim. -/
theorem C4_counterexample :
    spinChain2.numbers_to_states [5] = .error .ValueError ∧
    spinChain2.numbers_to_states [5] ≠ .error .IndexError := by
  constructor
  · decide
  · decide

/-- C4 amended: on an indexable space, `numbers_to_states` raises
`ValueError` whenever some number in the batch reaches `n_states`, and
decodes every number to a configuration when all are below `n_states`. -/
theorem C4_numbers_to_states_range (h : HomogeneousHilbert)
    (hidx : h.is_indexable = true) (numbers : List ℕ) :
    ((∃ n ∈ numbers, h.nStatesVal ≤ n) →
      h.numbers_to_states numbers = .error .ValueError) ∧
    ((∀ n ∈ numbers, n < h.nStatesVal) →
      h.numbers_to_states numbers = .ok (numbers.map h.decode)) := by
  constructor
  · rintro ⟨n, hn, hge⟩
    exact numbers_to_states_err hidx hn hge
  · intro hall
    exact numbers_to_states_ok hidx numbers hall

/-- C4 witness: the amended behaviour evaluated on the two-site spin chain
for an out-of-range batch and an in-range batch. -/
theorem C4_numbers_to_states_range_witness :
    spinChain2.numbers_to_states [9] = .error .ValueError ∧
    spinChain2.numbers_to_states [0, 3] = .ok ([0, 3].map spinChain2.decode) :=
  ⟨(C4_numbers_to_states_range spinChain2 (by decide) [9]).1 (by decide),
   (C4_numbers_to_states_range spinChain2 (by decide) [0, 3]).2 (by decide)⟩

/-- C5: on an indexable homogeneous space (distinct local eigenvalues),
`all_states` returns a batch of exactly `n_states` pairwise distinct rows,
and when a constraint predicate is present every row satisfies it. -/
theorem C5_all_states (h : HomogeneousHilbert) (ls : List ℚ)
    (hls : h.local_states = some ls) (hnd : ls.Nodup)
    (hidx : h.is_indexable = true) :
    h.all_states = .ok h.statesList ∧
    h.statesList.length = h.nStatesVal ∧
    h.statesList.Nodup ∧
    ∀ P, h.constraint_fn = some P → ∀ s ∈ h.statesList, P s = true := by
  refine ⟨?_, ?_⟩
  · simp [HomogeneousHilbert.all_states, hilbertIndex?_ok hidx,
      HomogeneousHilbert.statesList]
  obtain ⟨lsopt, N, cf⟩ := h
  obtain rfl : lsopt = some ls := hls
  cases cf with
  | none =>
    refine ⟨?_, ?_, ?_⟩
    · exact uAllStates_length ls N
    · exact uAllStates_nodup hnd N
    · intro P hP
      cases hP
  | some P =>
    refine ⟨rfl, ?_, ?_⟩
    · exact cAllStates_nodup hnd N P
    · intro Q hQ s hs
      obtain rfl : P = Q := by injection hQ
      exact (mem_cAllStates_iff.mp hs).2

/-- C5 witness: `all_states` of the zero-magnetization four-site chain is
returned successfully and its rows are pairwise distinct and constrained. -/
theorem C5_all_states_witness :
    constrainedChain4.all_states = .ok constrainedChain4.statesList ∧
    constrainedChain4.statesList.Nodup ∧
    (∀ s ∈ constrainedChain4.statesList, zeroSum s = true) :=
  ⟨(C5_all_states constrainedChain4 qHalf rfl (by decide) (by decide)).1,
   (C5_all_states constrainedChain4 qHalf rfl (by decide) (by decide)).2.2.1,
   (C5_all_states constrainedChain4 qHalf rfl (by decide)
      (by decide)).2.2.2 zeroSum rfl⟩

/-- C9 counterexample: `HomogeneousHilbert.__init__` accepts a local basis
with duplicate eigenvalues and an empty local basis; construction returns
the space instead of raising the `ConfigurationError` stated by the
claim. -/
theorem C9_counterexample :
    homogeneousInit (some [1, 1]) 2 none = .ok ⟨some [1, 1], 2, none⟩ ∧
    homogeneousInit (some []) 1 none = .ok ⟨some [], 1, none⟩ :=
  ⟨rfl, rfl⟩

/-- C9 amended: construction of a homogeneous space performs no validation
of the local-basis list (beyond the type-level assertions that the number
of sites is an integer and the basis is one-dimensional): it always
succeeds, in particular for empty or duplicate-containing lists. -/
theorem C9_init_no_validation (local_states : Option (List ℚ)) (N : ℕ)
    (constraint_fn : Option (List ℚ → Bool)) :
    homogeneousInit local_states N constraint_fn =
      .ok ⟨local_states, N, constraint_fn⟩ := rfl

lemma sumLog_eq_log_prod :
    ∀ {shape : List ℕ}, (∀ d ∈ shape, 1 ≤ d) →
      (shape.map (fun d : ℕ => Real.log (d : ℝ))).sum =
        Real.log ((shape.prod : ℕ) : ℝ) := by
  intro shape
  induction shape with
  | nil => intro _; simp
  | cons d rest ih =>
    intro hpos
    have hd : (1 : ℝ) ≤ (d : ℝ) := by
      exact_mod_cast hpos d (List.mem_cons_self d rest)
    have hrest : ∀ e ∈ rest, 1 ≤ e :=
      fun e he => hpos e (List.mem_cons_of_mem d he)
    have hp : (1 : ℝ) ≤ ((rest.prod : ℕ) : ℝ) := by
      exact_mod_cast List.one_le_prod_of_one_le hrest
    simp only [List.map_cons, List.sum_cons, List.prod_cons, ih hrest]
    rw [Nat.cast_mul,
      Real.log_mul (by linarith) (by linarith)]

lemma isIndexable_eq_log {shape : List ℕ} (hpos : ∀ d ∈ shape, 1 ≤ d) :
    isIndexableShape shape = true ↔ isIndexableLog shape := by
  have hprod : (1 : ℝ) ≤ ((shape.prod : ℕ) : ℝ) := by
    exact_mod_cast List.one_le_prod_of_one_le hpos
  have hmax : (0 : ℝ) < (max_states : ℕ) := by
    norm_num [max_states]
  unfold isIndexableShape isIndexableLog
  rw [decide_eq_true_eq, sumLog_eq_log_prod hpos,
    Real.log_le_log_iff (by linarith) hmax, Nat.cast_le]

/-- C2: `is_indexable` holds exactly when the space is finite and the sum
over sites of the logarithms of the local dimensions is at most
`log(2^31 - 1)`; in particular an infinite space and a finite space whose
log-dimension sum exceeds the bound are not indexable. -/
theorem C2_is_indexable_iff (h : HomogeneousHilbert) :
    h.is_indexable = true ↔
      h.is_finite = true ∧ isIndexableLog h.shape := by
  obtain ⟨lsopt, N, cf⟩ := h
  cases lsopt with
  | none =>
    simp [HomogeneousHilbert.is_indexable, HomogeneousHilbert.is_finite]
  | some ls =>
    have hsh : HomogeneousHilbert.shape ⟨some ls, N, cf⟩ =
        List.replicate N ls.length := rfl
    rcases Nat.eq_zero_or_pos ls.length with hk | hk
    · have hL : isIndexableShape (List.replicate N ls.length) = true := by
        cases N with
        | zero => simp [isIndexableShape, max_states]
        | succ m =>
          simp [isIndexableShape, List.prod_replicate, hk, Nat.zero_pow]
      have hR : isIndexableLog (List.replicate N ls.length) := by
        unfold isIndexableLog
        simp only [List.map_replicate, List.sum_replicate, hk,
          Nat.cast_zero, Real.log_zero, smul_zero]
        exact Real.log_nonneg (by norm_num [max_states])
      simp [HomogeneousHilbert.is_indexable, HomogeneousHilbert.is_finite,
        hsh, hL, hR]
    · have hpos : ∀ d ∈ List.replicate N ls.length, 1 ≤ d := by
        intro d hd
        rw [List.eq_of_mem_replicate hd]
        exact hk
      have hiff := isIndexable_eq_log hpos
      simp [HomogeneousHilbert.is_indexable, HomogeneousHilbert.is_finite,
        hsh]
      exact hiff

/-- C2 witness: the two-site spin chain is indexable, hence finite with a
log-dimension sum within the 32-bit bound. -/
theorem C2_is_indexable_iff_witness :
    spinChain2.is_finite = true ∧ isIndexableLog spinChain2.shape :=
  (C2_is_indexable_iff spinChain2).mp (by decide)

lemma tensorFold_eq_foldl (h : DHilbert) :
    ∀ m : ℕ, tensorFoldSpec h (m + 1) =
      some ((List.replicate m h).foldl DHilbert.mul h) := by
  intro m
  induction m with
  | zero => rfl
  | succ k ih =>
    show (tensorFoldSpec h (k + 1)).map (fun x => x.mul h) = _
    rw [ih, List.replicate_succ', List.foldl_append]
    rfl

/-- C6: the tensor product concatenates shapes (three sites times four
sites gives seven sites) and multiplies state counts when both operands
index successfully, and `pow` is the left-folded tensor product for every
exponent of at least one. -/
theorem C6_tensor_product :
    (∀ a b : DHilbert, (a.mul b).shape = a.shape ++ b.shape) ∧
    (∀ a b : DHilbert, ∀ x y : ℕ, a.nStates? = .ok x → b.nStates? = .ok y →
      (a.mul b).nStates? = .ok (x * y)) ∧
    (∀ a b : DHilbert, a.shape.length = 3 → b.shape.length = 4 →
      (a.mul b).shape.length = 7) ∧
    (∀ (h : DHilbert) (n : ℕ), 1 ≤ n → h.pow n = tensorFoldSpec h n) := by
  refine ⟨?_, ?_, ?_, ?_⟩
  · intro a b
    rfl
  · intro a b x y hx hy
    simp [DHilbert.mul, DHilbert.nStates?, hx, hy, ok_bind]
  · intro a b ha hb
    simp [DHilbert.mul, DHilbert.shape, ha, hb]
  · intro h n hn
    obtain ⟨m, rfl⟩ : ∃ m, n = m + 1 :=
      ⟨n - 1, (Nat.succ_pred_eq_of_pos hn).symm⟩
    rw [tensorFold_eq_foldl]
    simp [DHilbert.pow, List.replicate_succ]

/-- C6 witness: the product of the three-site and four-site spin spaces has
seven sites and `8 * 16` states, and squaring equals the two-fold left
fold. -/
theorem C6_tensor_product_witness :
    (spin3.mul spin4).shape.length = 7 ∧
    (spin3.mul spin4).nStates? = .ok (8 * 16) ∧
    spin3.pow 2 = tensorFoldSpec spin3 2 :=
  ⟨C6_tensor_product.2.2.1 spin3 spin4 (by decide) (by decide),
   C6_tensor_product.2.1 spin3 spin4 8 16 (by decide) (by decide),
   C6_tensor_product.2.2.2 spin3 2 (by decide)⟩

/-- C7: evidence for the divergence between `Sampler.__init__` and the
claim.  A non-`AbstractHilbert` argument raises `TypeError` and a
non-integer `machine_pow` raises `ValueError` as claimed, but the
non-positive integer `machine_pow = -1` is accepted: construction
succeeds, although the source's own error message demands a positive
integer. -/
theorem C7_machine_pow_not_validated :
    samplerInit (.abstractHilbert spinChain2) (.int (-1)) =
      .ok ⟨.abstractHilbert spinChain2, .int (-1)⟩ ∧
    samplerInit (.abstractHilbert spinChain2) (.float (1 / 2)) =
      .error .ValueError ∧
    samplerInit .notAHilbert (.int 2) = .error .TypeError :=
  ⟨rfl, rfl, rfl⟩

/-- C8: accessing `n_chains_per_rank` with a chain count not divisible by
the worker count raises the consistency `RuntimeError`; `compute_n_chains`
given only a non-divisible total `n_chains` instead warns (on the root
rank) and rounds the per-rank count up to the ceiling of
`n_chains / n_nodes`, returning per-rank times workers as the total. -/
theorem C8_chain_divisibility :
    (∀ n_chains n_nodes : ℕ, 1 ≤ n_nodes → n_chains % n_nodes ≠ 0 →
      n_chains_per_rank n_chains n_nodes = .error .RuntimeError) ∧
    (∀ nc n_nodes d : ℕ, 1 ≤ n_nodes → nc % n_nodes ≠ 0 →
      compute_n_chains none (some nc) d n_nodes 0 =
        .ok (npCeilDiv nc n_nodes * n_nodes, true)) := by
  constructor
  · intro c n h1 hmod
    have hn0 : n ≠ 0 := by omega
    simp [n_chains_per_rank, hn0, hmod]
  · intro nc n d h1 hmod
    have hnc1 : 1 ≤ nc := by
      rcases Nat.eq_zero_or_pos nc with rfl | hpos
      · exact absurd (Nat.zero_mod n) hmod
      · exact hpos
    have h1lt : 1 < n := by
      rcases Nat.lt_or_ge 1 n with hlt | hge
      · exact hlt
      · have hn1 : n = 1 := by omega
        exact absurd (hn1 ▸ Nat.mod_one nc) hmod
    have hceil1 : 1 ≤ npCeilDiv nc n := by
      unfold npCeilDiv
      rw [Nat.le_div_iff_mul_le (by omega : 0 < n)]
      omega
    have hmax : max (npCeilDiv nc n) 1 = npCeilDiv nc n :=
      Nat.max_eq_left hceil1
    have hne : npCeilDiv nc n * n ≠ nc := by
      intro heq
      exact hmod (heq ▸ Nat.mul_mod_left (npCeilDiv nc n) n)
    have hne0 : ¬ npCeilDiv nc n = 0 := by omega
    simp [compute_n_chains, hmax, hne0, h1lt, hne]

/-- C8 witness: five chains over two workers fail the per-rank divisibility
check, while `compute_n_chains` rounds five up to three per rank and
warns. -/
theorem C8_chain_divisibility_witness :
    n_chains_per_rank 5 2 = .error .RuntimeError ∧
    compute_n_chains none (some 5) 1 2 0 = .ok (npCeilDiv 5 2 * 2, true) :=
  ⟨C8_chain_divisibility.1 5 2 (by decide) (by decide),
   C8_chain_divisibility.2 5 2 1 (by decide) (by decide)⟩

/-- C10: the base-class `n_chains` property returns the worker count
itself, so `n_chains_per_rank` evaluates to one without ever taking the
non-divisibility error branch. -/
theorem C10_base_chains (n_nodes : ℕ) (h1 : 1 ≤ n_nodes) :
    n_chains_base n_nodes = n_nodes ∧
    n_chains_per_rank (n_chains_base n_nodes) n_nodes = .ok 1 := by
  refine ⟨rfl, ?_⟩
  have hn0 : n_nodes ≠ 0 := by omega
  simp [n_chains_per_rank, n_chains_base, hn0, Nat.mod_self,
    Nat.div_self (by omega : 0 < n_nodes)]

/-- C10 witness: the base-class chain bookkeeping evaluated with four
workers. -/
theorem C10_base_chains_witness :
    n_chains_base 4 = 4 ∧ n_chains_per_rank (n_chains_base 4) 4 = .ok 1 :=
  C10_base_chains 4 (by decide)

end NetKet
